import Mathlib

/-!
# size_definer

A verification development for `size_definer.cpp`, the build-time helper that writes
one `#define QTCW_sizeof_<Type> <size>` line per registered Qt type into the file named
by its first command-line argument.

The program is thirty lines of C++ on top of Qt.  The functions of the program itself
(`add`, the `ADD` macro, `main`) are embedded statement by statement.  The Qt calls they
make (`QString::arg`, `QString::toLatin1`, `QFile::open`, `QFile::write`, `qFatal`) are
modelled after the behaviour Qt documents for them; every such model says so in its
doc comment.
-/

namespace SizeDefiner

/-! ## Strings and byte arrays -/

/-- A `QString`, as the list of its characters. -/
abbrev QString := List Char

/-- A `QByteArray`.  The byte `b` is written as the character with code point `b`, so
that Latin-1 text and its encoding read the same. -/
abbrev QByteArray := List Char

/-- The `QString::toLatin1` conversion: a character in the Latin-1 range becomes the byte
with the same value, every other UTF-16 code unit becomes `?` (a character outside the
basic plane is two code units, hence two `?`). -/
def toLatin1 (s : QString) : QByteArray :=
  s.flatMap fun c =>
    if c.toNat < 256 then [c] else if c.toNat < 65536 then ['?'] else ['?', '?']

/-- The character for the decimal digit `d`. -/
def digitChar (d : Nat) : Char := Char.ofNat (48 + d)

/-- The decimal digits of `n`, most significant first, computed with `fuel` divisions
left. -/
def decimalDigits : Nat → Nat → List Char
  | 0, _ => []
  | fuel + 1, n =>
    if n < 10 then [digitChar n]
    else decimalDigits fuel (n / 10) ++ [digitChar (n % 10)]

/-- The decimal rendering of a natural number (`0` is rendered `0`). -/
def natDecimal (n : Nat) : List Char := decimalDigits (n + 1) n

/-- The decimal rendering of an integer the way `QString::arg(int)` produces it for a
plain place marker: C locale, base 10, no padding, a leading `-` for a negative value. -/
def decimal (v : Int) : QString :=
  if v < 0 then '-' :: natDecimal v.natAbs else natDecimal v.natAbs

/-- The number a list of digit characters stands for. -/
def digitsValue (s : List Char) : Nat :=
  s.foldl (fun acc c => 10 * acc + (c.toNat - 48)) 0

/-- The integer a decimal rendering stands for. -/
def decimalValue : List Char → Int
  | '-' :: t => -(digitsValue t : Int)
  | t => (digitsValue t : Int)

/-! ## Place markers of `QString::arg` -/

/-- The value of a character as a decimal digit, as the scan for place markers uses it. -/
def digitValue (c : Char) : Option Nat :=
  if 48 ≤ c.toNat ∧ c.toNat ≤ 57 then some (c.toNat - 48) else none

/-- One piece of a string as `QString::arg` reads it: an ordinary character, or a place
marker (`%` then an optional `L` then one or two digits) with its own text, its number
and whether it carries the `L`. -/
inductive Piece where
  | text (c : Char)
  | marker (raw : QString) (number : Nat) (localized : Bool)
  deriving DecidableEq, Repr

/-- Reads the digits of a place marker, one or two of them: the number they give and
how many characters after the `%` the marker takes, `k` of them being read already. -/
def markerDigits (loc : Bool) (k : Nat) (body : QString) : Option (Bool × Nat × Nat) :=
  match body with
  | [] => none
  | d1 :: r1 =>
    match digitValue d1 with
    | none => none
    | some n1 =>
      match r1 with
      | [] => some (loc, n1, k + 1)
      | d2 :: _ =>
        match digitValue d2 with
        | none => some (loc, n1, k + 1)
        | some n2 => some (loc, 10 * n1 + n2, k + 2)

/-- Reads what follows a `%`: when a place marker starts there, whether it has the `L`,
its number, and how many characters after the `%` belong to it. -/
def markerAfterPercent (rest : QString) : Option (Bool × Nat × Nat) :=
  match rest with
  | 'L' :: r => markerDigits true 1 r
  | r => markerDigits false 0 r

/-- Splits a string into its pieces, left to right; `skip` counts the characters that
still belong to the place marker just read. -/
def pieces : Nat → QString → List Piece
  | _, [] => []
  | skip + 1, _ :: rest => pieces skip rest
  | 0, c :: rest =>
    if c = '%' then
      match markerAfterPercent rest with
      | some (loc, n, len) => Piece.marker (c :: rest.take len) n loc :: pieces len rest
      | none => Piece.text c :: pieces 0 rest
    else Piece.text c :: pieces 0 rest

/-- The numbers of the place markers among the pieces, in order. -/
def markerNumbers : List Piece → List Nat
  | [] => []
  | Piece.text _ :: ps => markerNumbers ps
  | Piece.marker _ n _ :: ps => n :: markerNumbers ps

/-- The lowest place-marker number among the pieces, if there is any marker. -/
def lowest : List Piece → Option Nat
  | [] => none
  | Piece.text _ :: ps => lowest ps
  | Piece.marker _ n _ :: ps =>
    match lowest ps with
    | none => some n
    | some m => some (min n m)

/-- Puts the pieces back together, with every marker numbered `low` replaced: by `a`
for a plain marker, by `la` for one with the `L`. -/
def fill (low : Nat) (a la : QString) : List Piece → QString
  | [] => []
  | Piece.text c :: ps => c :: fill low a la ps
  | Piece.marker raw n loc :: ps =>
    (if n = low then (if loc then la else a) else raw) ++ fill low a la ps

/-- The `QString::arg(const QString &)` call: every occurrence of the lowest-numbered
place marker is replaced by `a`; a string without place marker is returned unchanged. -/
def arg (s a : QString) : QString :=
  match lowest (pieces 0 s) with
  | none => s
  | some low => fill low a a (pieces 0 s)

/-- The `QString::arg(int)` call: every occurrence of the lowest-numbered place marker is
replaced by the number, in plain decimal for `%n` and as `localeNumber` renders it for
`%Ln`; a string without place marker is returned unchanged. -/
def argInt (localeNumber : Int → QString) (s : QString) (v : Int) : QString :=
  match lowest (pieces 0 s) with
  | none => s
  | some low => fill low (decimal v) (localeNumber v) (pieces 0 s)

/-- The string has no place marker at all. -/
def hasNoPlaceMarker (s : QString) : Prop := markerNumbers (pieces 0 s) = []

/-- Every place marker of the string has a number above 2. -/
def markersAboveTwo (s : QString) : Prop := ∀ n ∈ markerNumbers (pieces 0 s), 2 < n

/-- The string is Latin-1 text: every character is in the range 0 to 255. -/
def isLatin1 (s : QString) : Prop := ∀ c ∈ s, c.toNat < 256

instance (s : QString) : Decidable (hasNoPlaceMarker s) :=
  inferInstanceAs (Decidable (markerNumbers (pieces 0 s) = []))

instance (s : QString) : Decidable (markersAboveTwo s) :=
  inferInstanceAs (Decidable (∀ n ∈ markerNumbers (pieces 0 s), 2 < n))

instance (s : QString) : Decidable (isLatin1 s) :=
  inferInstanceAs (Decidable (∀ c ∈ s, c.toNat < 256))

/-! ## The file system and `QFile` -/

/-- The part of the outside world the program touches: the files, and for every path
whether opening it for writing succeeds and whether the device behind it accepts data
(a full disk or a device such as `/dev/full` opens but does not). -/
structure FileSystem where
  /-- The bytes of the file at a path, `none` where there is no file. -/
  data : QString → Option QByteArray
  /-- Whether `open(QFile::WriteOnly)` succeeds at a path. -/
  openable : QString → Bool
  /-- Whether data written to an open file at a path reaches it. -/
  writable : QString → Bool

/-- A `QFile` object: the path it was constructed with, whether it is open, and its
write position (`pos()`), counted in bytes from the start of the file. -/
structure QFile where
  fileName : QString
  isOpen : Bool
  pos : Nat
  deriving DecidableEq, Repr

/-- The `file.open(QFile::WriteOnly)` call.  On success the file exists afterwards and is
empty (write-only implies truncation), the object is open and its position is the
start; on failure nothing changes.  The result is the value returned, the object and
the file system. -/
def QFile.open (file : QFile) (fs : FileSystem) : Bool × QFile × FileSystem :=
  if fs.openable file.fileName then
    (true, ⟨file.fileName, true, 0⟩,
      ⟨fun p => if p = file.fileName then some [] else fs.data p, fs.openable, fs.writable⟩)
  else
    (false, file, fs)

/-- The content of a file after `bytes` are written at position `pos`: the bytes take
the place of what was there and run past the old end if they must; a position beyond
the old end leaves a gap of zero bytes. -/
def writeAt (old : QByteArray) (pos : Nat) (bytes : QByteArray) : QByteArray :=
  old.take pos ++ List.replicate (pos - old.length) (Char.ofNat 0) ++ bytes
    ++ old.drop (pos + bytes.length)

/-- The `file->write(bytes)` call.  On an open file whose device accepts data the bytes
are written at the position of the object, which moves past them, and their number is
returned; otherwise nothing is written and the call returns -1.  (Qt buffers the data of
a `QFile`, and a device that rejects it may report so only when the buffer is flushed as
the file is closed; the program looks at neither result, so the failure is placed at the
write.)  The result is the value returned, the object and the file system. -/
def QFile.write (file : QFile) (fs : FileSystem) (bytes : QByteArray) :
    Int × QFile × FileSystem :=
  if file.isOpen && fs.writable file.fileName then
    ((bytes.length : Int), ⟨file.fileName, file.isOpen, file.pos + bytes.length⟩,
      ⟨fun p =>
          if p = file.fileName then some (writeAt ((fs.data p).getD []) file.pos bytes)
          else fs.data p,
        fs.openable, fs.writable⟩)
  else
    (-1, file, fs)

/-! ## The program -/

/-- What the program is compiled against: the sizes `sizeof` gives for the two registered
types, and the way the default `QLocale` renders an integer (`QString::arg` uses it for
`%L` markers only). -/
structure Platform where
  sizeofQPoint : Nat
  sizeofQRect : Nat
  localeNumber : Int → QString

/-- The types registered with `ADD`. -/
inductive QtType where
  | QPoint
  | QRect
  deriving DecidableEq, Repr

/-- The stringification `#name` of the `ADD` macro. -/
def QtType.stringify : QtType → QString
  | QtType.QPoint => "QPoint".toList
  | QtType.QRect => "QRect".toList

/-- The value of `sizeof(name)`, a `size_t`. -/
def Platform.sizeof (P : Platform) : QtType → Nat
  | QtType.QPoint => P.sizeofQPoint
  | QtType.QRect => P.sizeofQRect

/-- The conversion of a `size_t` to the 32-bit `int` parameter of `add`. -/
def toInt32 (n : Nat) : Int :=
  if n % 2 ^ 32 < 2 ^ 31 then ((n % 2 ^ 32 : Nat) : Int) else ((n % 2 ^ 32 : Nat) : Int) - 2 ^ 32

/-- The format string of `add`. -/
def lineFormat : QString := "#define QTCW_sizeof_%1 %2\n".toList

/-- The bytes `add` hands to `file->write`:
`QString("#define QTCW_sizeof_%1 %2\n").arg(name).arg(value).toLatin1()`. -/
def sizeLine (P : Platform) (name : QString) (value : Int) : QByteArray :=
  toLatin1 (argInt P.localeNumber (arg lineFormat name) value)

/-- The function `add`: one `file->write` of the formatted line; what the write returns
is discarded.  The result is the file object, which `add` reaches through a pointer, and
the file system. -/
def add (P : Platform) (file : QFile) (fs : FileSystem) (name : QString) (value : Int) :
    QFile × FileSystem :=
  (file.write fs (sizeLine P name value)).2

/-- The macro `ADD(name)`, that is `add(&file, #name, sizeof(name))`. -/
def ADD (P : Platform) (file : QFile) (fs : FileSystem) (name : QtType) :
    QFile × FileSystem :=
  add P file fs name.stringify (toInt32 (P.sizeof name))

/-- How a call of `qFatal` ends. -/
inductive Control where
  | returns
  | aborts
  deriving DecidableEq, Repr

/-- The `qFatal(msg)` call: Qt prints the message and aborts the process (the default
message handler calls `abort()`, and Qt 5 declares the function as not returning).
Control never reaches the statement after the call. -/
def qFatal (_msg : String) : Control := Control.aborts

/-- How the process ends: `main` returns a status, or the process is aborted. -/
inductive Termination where
  | exited (status : Int)
  | aborted
  deriving DecidableEq, Repr

/-- The function `main`.  Here `args` is the list `app.arguments()`: the program name,
then the arguments; `args.getD 1 []` is `args[1]`, which exists on the branch that reads
it.  The `qDebug` line only prints to the log and is left out.  The result is how the
process ends and the file system it leaves (the file is flushed and closed as `main`
returns). -/
def main (P : Platform) (fs : FileSystem) (args : List QString) : Termination × FileSystem :=
  if args.length < 2 then
    match qFatal "size_definer: no filename supplied." with
    | Control.aborts => (Termination.aborted, fs)
    | Control.returns => (Termination.exited 1, fs)
  else
    let file : QFile := ⟨args.getD 1 [], false, 0⟩
    match file.open fs with
    | (false, _, fs1) =>
      match qFatal "size_definer: can't open file." with
      | Control.aborts => (Termination.aborted, fs1)
      | Control.returns => (Termination.exited 2, fs1)
    | (true, file1, fs1) =>
      let s1 := ADD P file1 fs1 QtType.QPoint
      let s2 := ADD P s1.1 s1.2 QtType.QRect
      (Termination.exited 0, s2.2)

/-- The two lines of a complete output file, in registration order. -/
def sizeLines (P : Platform) : QByteArray :=
  sizeLine P QtType.QPoint.stringify (toInt32 P.sizeofQPoint) ++
    sizeLine P QtType.QRect.stringify (toInt32 P.sizeofQRect)

/-- The text every output line starts with. -/
def lineHead : QByteArray := "#define QTCW_sizeof_".toList

/-- A platform with the usual sizes (two and four 32-bit integers) and a locale that
renders numbers in plain decimal. -/
def platform64 : Platform := ⟨8, 16, decimal⟩

/-- A file system with no file, where every path opens and accepts data. -/
def emptyDisk : FileSystem := ⟨fun _ => none, fun _ => true, fun _ => true⟩

/-- A file system where every path opens but no device accepts data (a full disk);
`old.h` holds earlier content. -/
def fullDisk : FileSystem :=
  ⟨fun p => if p = "old.h".toList then some "stale".toList else none, fun _ => true, fun _ => false⟩

/-- A file system where every path opens and accepts data and `old.h` holds earlier
content. -/
def usedDisk : FileSystem :=
  ⟨fun p => if p = "old.h".toList then some "stale".toList else none, fun _ => true, fun _ => true⟩

/-- The file object and the file system right after the open of `main` at a path. -/
def openedOn (fs : FileSystem) (path : QString) : QFile × FileSystem :=
  (QFile.open ⟨path, false, 0⟩ fs).2

/-- A sequence of `add` calls on one file, in the order of the list. -/
def addAll (P : Platform) (file : QFile) (fs : FileSystem) :
    List (QString × Int) → QFile × FileSystem
  | [] => (file, fs)
  | e :: es => addAll P (add P file fs e.1 e.2).1 (add P file fs e.1 e.2).2 es

/-- The lines of a sequence of `add` calls, one after the other. -/
def linesOf (P : Platform) (entries : List (QString × Int)) : QByteArray :=
  entries.flatMap fun e => sizeLine P e.1 e.2

/-! ## Reading an output file -/

/-- The complete lines of a byte sequence (each without its newline), and the bytes left
after the last newline. -/
def splitLines : QByteArray → List QByteArray × QByteArray
  | [] => ([], [])
  | c :: rest =>
    if c = '\n' then ([] :: (splitLines rest).1, (splitLines rest).2)
    else
      match (splitLines rest).1 with
      | [] => ([], c :: (splitLines rest).2)
      | l :: ls => ((c :: l) :: ls, (splitLines rest).2)

/-! # Theorems -/

/-! ## Decimal rendering -/

theorem digitChar_toNat (d : Nat) (h : d < 10) : (digitChar d).toNat = 48 + d := by
  interval_cases d <;> rfl

theorem decimalDigits_digit (fuel n : Nat) :
    ∀ c ∈ decimalDigits fuel n, ∃ d, d < 10 ∧ c = digitChar d := by
  induction fuel generalizing n with
  | zero => intro c hc; simp [decimalDigits] at hc
  | succ fuel ih =>
    intro c hc
    unfold decimalDigits at hc
    split at hc
    · rename_i hlt
      simp only [List.mem_singleton] at hc
      exact ⟨n, hlt, hc⟩
    · rcases List.mem_append.mp hc with h | h
      · exact ih _ c h
      · simp only [List.mem_singleton] at h
        exact ⟨n % 10, Nat.mod_lt _ (by decide), h⟩

theorem digitsValue_append_digit (s : List Char) (d : Nat) (h : d < 10) :
    digitsValue (s ++ [digitChar d]) = 10 * digitsValue s + d := by
  simp [digitsValue, List.foldl_append, digitChar_toNat d h]

theorem digitsValue_decimalDigits (fuel n : Nat) (h : n < fuel) :
    digitsValue (decimalDigits fuel n) = n := by
  induction fuel generalizing n with
  | zero => omega
  | succ fuel ih =>
    unfold decimalDigits
    split
    · rename_i hlt
      simp [digitsValue, digitChar_toNat n hlt]
    · rw [digitsValue_append_digit _ _ (Nat.mod_lt _ (by decide)), ih (n / 10) (by omega)]
      omega

theorem natDecimal_digit (n : Nat) : ∀ c ∈ natDecimal n, ∃ d, d < 10 ∧ c = digitChar d :=
  decimalDigits_digit (n + 1) n

theorem digitsValue_natDecimal (n : Nat) : digitsValue (natDecimal n) = n :=
  digitsValue_decimalDigits (n + 1) n (Nat.lt_succ_self n)

theorem digitChar_props (d : Nat) (h : d < 10) :
    digitChar d ≠ '-' ∧ digitChar d ≠ ' ' ∧ digitChar d ≠ '\n' ∧ (digitChar d).toNat < 256 := by
  interval_cases d <;> decide

theorem decimalValue_natDecimal (n : Nat) : decimalValue (natDecimal n) = (n : Int) := by
  have hd := natDecimal_digit n
  have hv := digitsValue_natDecimal n
  cases hs : natDecimal n with
  | nil => rw [hs] at hv; simp [decimalValue, ← hv]
  | cons c t =>
    rw [hs] at hd hv
    obtain ⟨d, hd10, hcd⟩ := hd c (List.mem_cons_self _ _)
    have hne : c ≠ '-' := hcd ▸ (digitChar_props d hd10).1
    unfold decimalValue
    split
    · rename_i heq
      exact absurd (List.cons.inj heq).1 (by simpa using hne)
    · rw [hv]

theorem decimalValue_decimal (v : Int) : decimalValue (decimal v) = v := by
  unfold decimal
  split
  · rename_i hneg
    show -(digitsValue (natDecimal v.natAbs) : Int) = v
    rw [digitsValue_natDecimal]
    omega
  · rename_i hpos
    rw [decimalValue_natDecimal]
    omega

theorem decimal_injective (v w : Int) (h : decimal v = decimal w) : v = w := by
  rw [← decimalValue_decimal v, ← decimalValue_decimal w, h]

theorem decimal_chars (v : Int) :
    ∀ c ∈ decimal v, c ≠ ' ' ∧ c ≠ '\n' ∧ c.toNat < 256 := by
  intro c hc
  have hdig : ∀ c ∈ natDecimal v.natAbs, c ≠ ' ' ∧ c ≠ '\n' ∧ c.toNat < 256 := by
    intro c hc
    obtain ⟨d, hd, rfl⟩ := natDecimal_digit _ c hc
    exact ⟨(digitChar_props d hd).2.1, (digitChar_props d hd).2.2.1, (digitChar_props d hd).2.2.2⟩
  unfold decimal at hc
  split at hc
  · rcases List.mem_cons.mp hc with h | h
    · subst h; decide
    · exact hdig c h
  · exact hdig c hc

/-! ## Place markers -/

theorem digitValue_space : digitValue ' ' = none := by decide

theorem markerDigits_length (loc : Bool) (k : Nat) (body : QString) (b : Bool) (n len : Nat)
    (h : markerDigits loc k body = some (b, n, len)) : len ≤ k + body.length := by
  unfold markerDigits at h
  split at h
  · exact absurd h (by simp)
  · split at h
    · exact absurd h (by simp)
    · split at h
      · simp only [Option.some.injEq, Prod.mk.injEq] at h
        simp only [List.length_cons]; omega
      · split at h
        · simp only [Option.some.injEq, Prod.mk.injEq] at h
          simp only [List.length_cons]; omega
        · simp only [Option.some.injEq, Prod.mk.injEq] at h
          simp only [List.length_cons]; omega

theorem markerAfterPercent_length (rest : QString) (loc : Bool) (n len : Nat)
    (h : markerAfterPercent rest = some (loc, n, len)) : len ≤ rest.length := by
  unfold markerAfterPercent at h
  split at h
  · have := markerDigits_length _ _ _ _ _ _ h
    simp only [List.length_cons]; omega
  · have := markerDigits_length _ _ _ _ _ _ h
    omega

theorem markerDigits_append_space (loc : Bool) (k : Nat) (body ys : QString) :
    markerDigits loc k (body ++ ' ' :: ys) = markerDigits loc k body := by
  rcases body with _ | ⟨d1, _ | ⟨d2, r⟩⟩
  · simp [markerDigits, digitValue_space]
  · cases h1 : digitValue d1 <;> simp [markerDigits, h1, digitValue_space]
  · cases h1 : digitValue d1 <;> simp [markerDigits, h1]

/-- What follows a percent sign reads the same when a space and more text are put after
the string. -/
theorem markerAfterPercent_append_space (rest ys : QString) :
    markerAfterPercent (rest ++ ' ' :: ys) = markerAfterPercent rest := by
  rcases rest with _ | ⟨c, r⟩
  · simp [markerAfterPercent, markerDigits, digitValue_space]
  · by_cases hc : c = 'L'
    · subst hc
      exact markerDigits_append_space true 1 r ys
    · have e1 : ∀ t : QString, markerAfterPercent (c :: t) = markerDigits false 0 (c :: t) := by
        intro t
        unfold markerAfterPercent
        split
        · rename_i heq
          exact absurd (List.cons.inj heq).1 hc
        · rfl
      rw [List.cons_append, e1, e1, ← List.cons_append, markerDigits_append_space]

theorem pieces_append_space (ys : QString) (q : List Piece) (hq : pieces 0 (' ' :: ys) = q)
    (xs : QString) :
    ∀ skip, skip ≤ xs.length → pieces skip (xs ++ ' ' :: ys) = pieces skip xs ++ q := by
  induction xs with
  | nil =>
    intro skip h
    have : skip = 0 := by simpa using h
    subst this
    simpa [pieces] using hq
  | cons c rest ih =>
    intro skip h
    cases skip with
    | succ s =>
      simp only [List.cons_append, pieces, List.append_eq]
      exact ih s (by simpa using h)
    | zero =>
      simp only [List.cons_append, pieces, List.append_eq]
      by_cases hc : c = '%'
      · simp only [hc, if_true]
        rw [markerAfterPercent_append_space]
        cases hm : markerAfterPercent rest with
        | none => simp [ih 0 (Nat.zero_le _)]
        | some t =>
          obtain ⟨loc, n, len⟩ := t
          have hlen := markerAfterPercent_length rest loc n len hm
          simp [ih len hlen, List.take_append_of_le_length hlen]
      · simp [hc, ih 0 (Nat.zero_le _)]

theorem pieces_text_append (pre xs : QString) (h : '%' ∉ pre) :
    pieces 0 (pre ++ xs) = pre.map Piece.text ++ pieces 0 xs := by
  induction pre with
  | nil => simp
  | cons c rest ih =>
    have hc : c ≠ '%' := fun e => h (e ▸ List.mem_cons_self _ _)
    have hr : '%' ∉ rest := fun e => h (List.mem_cons_of_mem _ e)
    simp [pieces, hc, ih hr]

theorem fill_text (low : Nat) (a la : QString) (pre : QString) (ps : List Piece) :
    fill low a la (pre.map Piece.text ++ ps) = pre ++ fill low a la ps := by
  induction pre with
  | nil => simp
  | cons c rest ih => simp [fill, ih]

theorem fill_append (low : Nat) (a la : QString) (ps qs : List Piece) :
    fill low a la (ps ++ qs) = fill low a la ps ++ fill low a la qs := by
  induction ps with
  | nil => simp [fill]
  | cons p rest ih =>
    cases p with
    | text c => simp [fill, ih]
    | marker raw n loc => simp [fill, ih]

theorem lowest_text (pre : QString) (ps : List Piece) :
    lowest (pre.map Piece.text ++ ps) = lowest ps := by
  induction pre with
  | nil => simp
  | cons c rest ih => simp [lowest, ih]

theorem markerNumbers_append (ps qs : List Piece) :
    markerNumbers (ps ++ qs) = markerNumbers ps ++ markerNumbers qs := by
  induction ps with
  | nil => simp [markerNumbers]
  | cons p rest ih =>
    cases p with
    | text c => simp [markerNumbers, ih]
    | marker raw n loc => simp [markerNumbers, ih]

/-- Markers numbered above `low` in front of pieces whose lowest marker is `low` leave
`low` the lowest. -/
theorem lowest_append_above (low : Nat) (ps qs : List Piece)
    (hq : lowest qs = some low) (hp : ∀ n ∈ markerNumbers ps, low < n) :
    lowest (ps ++ qs) = some low := by
  induction ps with
  | nil => simpa using hq
  | cons p rest ih =>
    cases p with
    | text c =>
      simp only [List.cons_append, lowest, List.append_eq]
      exact ih (fun n hn => hp n (by simpa [markerNumbers] using hn))
    | marker raw n loc =>
      have h1 : low < n := hp n (by simp [markerNumbers])
      have h2 := ih (fun m hm => hp m (by simp [markerNumbers, hm]))
      simp only [List.cons_append, lowest, List.append_eq, h2]
      rw [Nat.min_eq_right (Nat.le_of_lt h1)]

/-- Pieces none of whose markers is numbered `low` are put back together unchanged. -/
theorem fill_pieces_unchanged (low : Nat) (a la : QString) (xs : QString) :
    ∀ skip, skip ≤ xs.length → (∀ n ∈ markerNumbers (pieces skip xs), n ≠ low) →
      fill low a la (pieces skip xs) = xs.drop skip := by
  induction xs with
  | nil => intro skip _ _; simp [pieces, fill]
  | cons c rest ih =>
    intro skip h hn
    cases skip with
    | succ s =>
      simp only [pieces, List.drop_succ_cons] at hn ⊢
      exact ih s (by simpa using h) hn
    | zero =>
      simp only [pieces, List.drop_zero] at hn ⊢
      by_cases hc : c = '%'
      · simp only [hc, if_true] at hn ⊢
        cases hm : markerAfterPercent rest with
        | none =>
          simp only [hm] at hn ⊢
          simp only [fill]
          rw [ih 0 (Nat.zero_le _) (fun n h => hn n (by simpa [markerNumbers] using h))]
          simp
        | some t =>
          obtain ⟨loc, n, len⟩ := t
          have hlen := markerAfterPercent_length rest loc n len hm
          simp only [hm] at hn ⊢
          have hne : n ≠ low := hn n (by simp [markerNumbers])
          simp only [fill, hne, if_false]
          rw [ih len hlen (fun m h => hn m (by simp [markerNumbers, h]))]
          simp
      · simp only [hc, if_false] at hn ⊢
        simp only [fill]
        rw [ih 0 (Nat.zero_le _) (fun n h => hn n (by simpa [markerNumbers] using h))]
        simp

/-! ## The formatted line -/

theorem toLatin1_append (s t : QString) : toLatin1 (s ++ t) = toLatin1 s ++ toLatin1 t := by
  simp [toLatin1]

theorem toLatin1_of_isLatin1 (s : QString) (h : isLatin1 s) : toLatin1 s = s := by
  induction s with
  | nil => rfl
  | cons c rest ih =>
    have hc : c.toNat < 256 := h c (List.mem_cons_self _ _)
    have hr : isLatin1 rest := fun d hd => h d (List.mem_cons_of_mem _ hd)
    have e : toLatin1 (c :: rest) = toLatin1 [c] ++ toLatin1 rest := toLatin1_append [c] rest
    rw [e, ih hr]
    simp [toLatin1, hc]

theorem isLatin1_decimal (v : Int) : isLatin1 (decimal v) :=
  fun c hc => (decimal_chars v c hc).2.2

/-- The first substitution puts the name in place of the first marker, whatever the
name is. -/
theorem arg_lineFormat (name : QString) :
    arg lineFormat name = lineHead ++ (name ++ ' ' :: '%' :: '2' :: ['\n']) := rfl

/-- The second substitution, for a name whose markers are all numbered above 2. -/
theorem argInt_arg_lineFormat (loc : Int → QString) (name : QString) (value : Int)
    (h : markersAboveTwo name) :
    argInt loc (arg lineFormat name) value =
      lineHead ++ (name ++ ' ' :: (decimal value ++ ['\n'])) := by
  have hp : pieces 0 (arg lineFormat name) =
      lineHead.map Piece.text ++
        (pieces 0 name ++ [Piece.text ' ', Piece.marker ['%', '2'] 2 false, Piece.text '\n']) := by
    rw [arg_lineFormat, pieces_text_append _ _ (by decide),
      pieces_append_space _ _ rfl name 0 (Nat.zero_le _)]
    rfl
  have hl : lowest (pieces 0 (arg lineFormat name)) = some 2 := by
    rw [hp, lowest_text]
    exact lowest_append_above 2 _ _ rfl h
  have hf : fill 2 (decimal value) (loc value) (pieces 0 name) = name := by
    have := fill_pieces_unchanged 2 (decimal value) (loc value) name 0 (Nat.zero_le _)
      (fun n hn => Nat.ne_of_gt (h n hn))
    simpa using this
  unfold argInt
  rw [hl]
  show fill 2 (decimal value) (loc value) (pieces 0 (arg lineFormat name)) = _
  rw [hp, fill_text, fill_append, hf]
  simp [fill]

/-- The line of a name whose markers are all numbered above 2. -/
theorem sizeLine_eq (P : Platform) (name : QString) (value : Int) (h : markersAboveTwo name) :
    sizeLine P name value = lineHead ++ (toLatin1 name ++ ' ' :: (decimal value ++ ['\n'])) := by
  unfold sizeLine
  rw [argInt_arg_lineFormat _ _ _ h, toLatin1_append, toLatin1_append]
  have e1 : toLatin1 lineHead = lineHead := by decide
  have e2 : toLatin1 (' ' :: (decimal value ++ ['\n'])) = ' ' :: (decimal value ++ ['\n']) := by
    apply toLatin1_of_isLatin1
    intro c hc
    rcases List.mem_cons.mp hc with hc | hc
    · subst hc; decide
    · rcases List.mem_append.mp hc with hc | hc
      · exact isLatin1_decimal value c hc
      · simp only [List.mem_singleton] at hc
        subst hc; decide
  rw [e1, e2]

theorem markersAboveTwo_of_hasNoPlaceMarker (s : QString) (h : hasNoPlaceMarker s) :
    markersAboveTwo s := by
  intro n hn
  unfold hasNoPlaceMarker at h
  rw [h] at hn
  simp at hn

/-- A list is cut at its last space in one way only. -/
theorem append_space_cancel (xs ys s t : List Char) (hs : ' ' ∉ s) (ht : ' ' ∉ t)
    (h : xs ++ ' ' :: s = ys ++ ' ' :: t) : xs = ys ∧ s = t := by
  induction xs generalizing ys with
  | nil =>
    cases ys with
    | nil => simpa using h
    | cons y ys =>
      simp only [List.nil_append, List.cons_append, List.cons.injEq] at h
      exact absurd (h.2 ▸ List.mem_append_right ys (List.mem_cons_self _ _)) hs
  | cons x xs ih =>
    cases ys with
    | nil =>
      simp only [List.nil_append, List.cons_append, List.cons.injEq] at h
      exact absurd (h.2 ▸ List.mem_append_right xs (List.mem_cons_self _ _)) ht
    | cons y ys =>
      simp only [List.cons_append, List.cons.injEq] at h
      obtain ⟨e1, e2⟩ := ih ys h.2
      exact ⟨by rw [h.1, e1], e2⟩

/-! ## The program -/

theorem writeAt_end (old bytes : QByteArray) :
    writeAt old old.length bytes = old ++ bytes := by
  simp [writeAt]

theorem add_data (P : Platform) (file : QFile) (fs : FileSystem) (name : QString)
    (value : Int) (p : QString) :
    (add P file fs name value).2.data p =
      if (file.isOpen && fs.writable file.fileName) = true ∧ p = file.fileName then
        some (writeAt ((fs.data p).getD []) file.pos (sizeLine P name value))
      else fs.data p := by
  unfold add QFile.write
  by_cases h : (file.isOpen && fs.writable file.fileName) = true
  · by_cases hp : p = file.fileName <;> simp [h, hp]
  · simp [h]

theorem add_file (P : Platform) (file : QFile) (fs : FileSystem) (name : QString)
    (value : Int) :
    (add P file fs name value).1 =
      ⟨file.fileName, file.isOpen,
        if (file.isOpen && fs.writable file.fileName) = true then
          file.pos + (sizeLine P name value).length
        else file.pos⟩ := by
  unfold add QFile.write
  by_cases h : (file.isOpen && fs.writable file.fileName) = true <;> simp [h]

theorem add_writable (P : Platform) (file : QFile) (fs : FileSystem) (name : QString)
    (value : Int) : (add P file fs name value).2.writable = fs.writable := by
  unfold add QFile.write
  split <;> rfl

theorem add_openable (P : Platform) (file : QFile) (fs : FileSystem) (name : QString)
    (value : Int) : (add P file fs name value).2.openable = fs.openable := by
  unfold add QFile.write
  split <;> rfl

theorem main_of_path (P : Platform) (fs : FileSystem) (prog path : QString)
    (extra : List QString) :
    main P fs (prog :: path :: extra) =
      if fs.openable path = true then
        (Termination.exited 0,
          (ADD P
            (ADD P ⟨path, true, 0⟩
              ⟨fun p => if p = path then some [] else fs.data p, fs.openable, fs.writable⟩
              QtType.QPoint).1
            (ADD P ⟨path, true, 0⟩
              ⟨fun p => if p = path then some [] else fs.data p, fs.openable, fs.writable⟩
              QtType.QPoint).2
            QtType.QRect).2)
      else (Termination.aborted, fs) := by
  unfold main
  have hlen : ¬ (prog :: path :: extra).length < 2 := by simp
  rw [if_neg hlen]
  by_cases ho : fs.openable path = true
  · simp [QFile.open, ho]
  · simp [QFile.open, ho, qFatal]

theorem main_status (P : Platform) (fs : FileSystem) (prog path : QString)
    (extra : List QString) :
    (main P fs (prog :: path :: extra)).1 =
      if fs.openable path = true then Termination.exited 0 else Termination.aborted := by
  rw [main_of_path]
  split <;> rfl

theorem main_data (P : Platform) (fs : FileSystem) (prog path : QString)
    (extra : List QString) (ho : fs.openable path = true) :
    (main P fs (prog :: path :: extra)).2.data path =
      some (if fs.writable path = true then sizeLines P else []) := by
  rw [main_of_path, if_pos ho]
  simp only [ADD, add_data, add_writable, add_file]
  by_cases hw : fs.writable path = true
  · simp [hw, sizeLines, Platform.sizeof, writeAt]
  · simp [hw]

theorem main_flags (P : Platform) (fs : FileSystem) (args : List QString) :
    (main P fs args).2.openable = fs.openable ∧ (main P fs args).2.writable = fs.writable := by
  rcases args with _ | ⟨prog, _ | ⟨path, extra⟩⟩
  · exact ⟨rfl, rfl⟩
  · exact ⟨rfl, rfl⟩
  · rw [main_of_path]
    split
    · simp [ADD, add_openable, add_writable]
    · exact ⟨rfl, rfl⟩

theorem toInt32_of_lt (n : Nat) (h : n < 2 ^ 31) : toInt32 n = (n : Int) := by
  unfold toInt32
  have e : n % 2 ^ 32 = n := Nat.mod_eq_of_lt (by omega)
  rw [e, if_pos h]

theorem sizeLines_eq (P : Platform) :
    sizeLines P =
      lineHead ++ ("QPoint".toList ++ ' ' :: (decimal (toInt32 P.sizeofQPoint) ++ ['\n'])) ++
        (lineHead ++ ("QRect".toList ++ ' ' :: (decimal (toInt32 P.sizeofQRect) ++ ['\n']))) := by
  unfold sizeLines
  rw [sizeLine_eq P _ _ (by decide), sizeLine_eq P _ _ (by decide)]
  rfl

theorem splitLines_line (l rest : QByteArray) (h : '\n' ∉ l) :
    splitLines (l ++ '\n' :: rest) = (l :: (splitLines rest).1, (splitLines rest).2) := by
  induction l with
  | nil => simp [splitLines]
  | cons c t ih =>
    have hc : c ≠ '\n' := fun e => h (e ▸ List.mem_cons_self _ _)
    have ht : '\n' ∉ t := fun e => h (List.mem_cons_of_mem _ e)
    simp [splitLines, hc, ih ht]

theorem line_body_no_newline (name : QString) (v : Int) (hn : '\n' ∉ name) :
    '\n' ∉ lineHead ++ (name ++ ' ' :: decimal v) := by
  intro hm
  rcases List.mem_append.mp hm with h | h
  · exact absurd h (by decide)
  · rcases List.mem_append.mp h with h | h
    · exact hn h
    · rcases List.mem_cons.mp h with h | h
      · exact absurd h (by decide)
      · exact (decimal_chars v _ h).2.1 rfl

/-- The write goes to the position of the file object: at position 0 of a file that
holds `stale` the line takes the place of the old bytes. -/
theorem add_at_start_replaces :
    (add platform64 ⟨"old.h".toList, true, 0⟩ usedDisk "QPoint".toList 8).2.data "old.h".toList
      = some "#define QTCW_sizeof_QPoint 8\n".toList := by
  decide

theorem linesOf_cons (P : Platform) (e : QString × Int) (es : List (QString × Int)) :
    linesOf P (e :: es) = sizeLine P e.1 e.2 ++ linesOf P es := by
  simp [linesOf]

/-- On an open file whose device takes the data and whose position is the end, a sequence
of `add` calls puts the lines after the content, in call order. -/
theorem addAll_data (P : Platform) (entries : List (QString × Int)) :
    ∀ (file : QFile) (fs : FileSystem) (c : QByteArray), file.isOpen = true →
      fs.writable file.fileName = true → fs.data file.fileName = some c →
      file.pos = c.length →
      (addAll P file fs entries).2.data file.fileName = some (c ++ linesOf P entries) := by
  induction entries with
  | nil =>
    intro file fs c _ _ hc _
    simpa [addAll, linesOf] using hc
  | cons e es ih =>
    intro file fs c hopen hw hc hpos
    have hf := add_file P file fs e.1 e.2
    have hd : (add P file fs e.1 e.2).2.data file.fileName = some (c ++ sizeLine P e.1 e.2) := by
      rw [add_data, hc, hpos]
      simp [hopen, hw, writeAt_end]
    have hname : (add P file fs e.1 e.2).1.fileName = file.fileName := by rw [hf]
    have h := ih (add P file fs e.1 e.2).1 (add P file fs e.1 e.2).2 (c ++ sizeLine P e.1 e.2)
      (by rw [hf]; exact hopen) (by rw [add_writable, hname]; exact hw)
      (by rw [hname]; exact hd) (by rw [hf]; simp [hopen, hw, hpos])
    rw [hname] at h
    rw [linesOf_cons, ← List.append_assoc]
    exact h

/-! ## The claims -/

/-- C1, as stated, fails: on a disk that opens the file but accepts no data, `main`
exits with status 0 and the file does not hold the two lines. -/
theorem main_output_counterexample :
    fullDisk.openable "old.h".toList = true ∧
      (main platform64 fullDisk ["size_definer".toList, "old.h".toList]).1
        = Termination.exited 0 ∧
      (main platform64 fullDisk ["size_definer".toList, "old.h".toList]).2.data "old.h".toList
        ≠ some "#define QTCW_sizeof_QPoint 8\n#define QTCW_sizeof_QRect 16\n".toList := by
  decide

/-- C1, amended: for every argument list with a path argument whose file opens and
accepts the data written, `main` exits with status 0 and the file holds exactly the line
for QPoint followed by the line for QRect, each carrying the `sizeof` value handed to
`add` (the value itself when it fits an `int`); with sizes 8 and 16 the file is exactly
the two lines of the specification. -/
theorem main_writes_size_lines (P : Platform) (fs : FileSystem) (prog path : QString)
    (extra : List QString) (ho : fs.openable path = true) (hw : fs.writable path = true) :
    (main P fs (prog :: path :: extra)).1 = Termination.exited 0 ∧
      (main P fs (prog :: path :: extra)).2.data path =
        some (lineHead ++ ("QPoint".toList ++ ' ' :: (decimal (toInt32 P.sizeofQPoint) ++ ['\n']))
          ++ (lineHead ++ ("QRect".toList ++ ' ' :: (decimal (toInt32 P.sizeofQRect) ++ ['\n'])))) ∧
      (P.sizeofQPoint < 2 ^ 31 → toInt32 P.sizeofQPoint = (P.sizeofQPoint : Int)) ∧
      (P.sizeofQRect < 2 ^ 31 → toInt32 P.sizeofQRect = (P.sizeofQRect : Int)) ∧
      (P.sizeofQPoint = 8 → P.sizeofQRect = 16 →
        (main P fs (prog :: path :: extra)).2.data path =
          some "#define QTCW_sizeof_QPoint 8\n#define QTCW_sizeof_QRect 16\n".toList) := by
  have hd := main_data P fs prog path extra ho
  rw [if_pos hw, sizeLines_eq] at hd
  refine ⟨?_, hd, toInt32_of_lt _, toInt32_of_lt _, ?_⟩
  · rw [main_status, if_pos ho]
  · intro h8 h16
    rw [hd, h8, h16]
    rfl

/-- A run of C1 as amended: an empty disk, the usual sizes. -/
theorem main_writes_size_lines_witness :
    emptyDisk.openable "out.h".toList = true ∧ emptyDisk.writable "out.h".toList = true ∧
      (main platform64 emptyDisk ["size_definer".toList, "out.h".toList]).2.data "out.h".toList
        = some "#define QTCW_sizeof_QPoint 8\n#define QTCW_sizeof_QRect 16\n".toList :=
  ⟨rfl, rfl,
    (main_writes_size_lines platform64 emptyDisk "size_definer".toList "out.h".toList []
      rfl rfl).2.2.2.2 rfl rfl⟩

/-- C2 on the code: with no path argument (an empty argument list, or the program name
alone) `qFatal` aborts the process and the file system is left as it was; the statement
`return 1` is never reached, and no run of `main` ends with exit status 1. -/
theorem main_without_path_aborts (P : Platform) (fs : FileSystem) (prog : QString) :
    main P fs [] = (Termination.aborted, fs) ∧
      main P fs [prog] = (Termination.aborted, fs) ∧
      ∀ args, (main P fs args).1 ≠ Termination.exited 1 := by
  refine ⟨rfl, rfl, ?_⟩
  intro args
  rcases args with _ | ⟨a, _ | ⟨b, rest⟩⟩
  · exact fun h => Termination.noConfusion h
  · exact fun h => Termination.noConfusion h
  · rw [main_status]
    split <;> simp

/-- C3 on the code: when the open fails `qFatal` aborts the process and the file system
is left as it was; the statement `return 2` is never reached, and no run of `main` ends
with exit status 2. -/
theorem main_open_failure_aborts (P : Platform) (data : QString → Option QByteArray)
    (writable : QString → Bool) (prog path : QString) (extra : List QString) :
    main P ⟨data, fun _ => false, writable⟩ (prog :: path :: extra)
        = (Termination.aborted, ⟨data, fun _ => false, writable⟩) ∧
      ∀ fs args, (main P fs args).1 ≠ Termination.exited 2 := by
  refine ⟨?_, ?_⟩
  · rw [main_of_path]
    simp
  · intro fs args
    rcases args with _ | ⟨a, _ | ⟨b, rest⟩⟩
    · exact fun h => Termination.noConfusion h
    · exact fun h => Termination.noConfusion h
    · rw [main_status]
      split <;> simp

/-- C4, as stated, fails.  For the name `%1` the second substitution replaces the marker
inside the name, so the line written is `#define QTCW_sizeof_8 %2` and not
`#define QTCW_sizeof_%1 8`.  Besides, a name outside Latin-1 (here the letter pi) is
written as `?`, and on a disk that accepts no data nothing is written at all. -/
theorem add_marker_name_counterexample :
    (add platform64 ⟨"out.h".toList, true, 0⟩ emptyDisk "%1".toList 8).2.data "out.h".toList
        = some "#define QTCW_sizeof_8 %2\n".toList ∧
      (add platform64 ⟨"out.h".toList, true, 0⟩ emptyDisk "%1".toList 8).2.data "out.h".toList
        ≠ some ("#define QTCW_sizeof_".toList ++ "%1".toList ++ " ".toList ++ "8".toList
            ++ "\n".toList) ∧
      (add platform64 ⟨"out.h".toList, true, 0⟩ emptyDisk [Char.ofNat 960] 8).2.data
          "out.h".toList
        = some "#define QTCW_sizeof_? 8\n".toList ∧
      (add platform64 ⟨"out.h".toList, true, 0⟩ fullDisk "QPoint".toList 8).2.data
          "out.h".toList
        = none := by
  decide

/-- C4, amended: for every name whose place markers are all numbered above 2 (so every
name without place marker) and every integer value, the bytes `add` hands to the write
are `#define QTCW_sizeof_`, the Latin-1 encoding of the name (the name itself when it is
Latin-1 text), one space, the decimal rendering of the value and one newline; on an open
file whose device accepts the data exactly these bytes are written at the position of the
file, so that they are added to the file when that position is its end. -/
theorem add_writes_line (P : Platform) (name : QString) (value : Int)
    (hm : markersAboveTwo name) :
    sizeLine P name value
        = "#define QTCW_sizeof_".toList ++ (toLatin1 name ++ ' ' :: (decimal value ++ ['\n'])) ∧
      (isLatin1 name → sizeLine P name value
        = "#define QTCW_sizeof_".toList ++ (name ++ ' ' :: (decimal value ++ ['\n']))) ∧
      ∀ (file : QFile) (fs : FileSystem), file.isOpen = true →
        fs.writable file.fileName = true →
        (add P file fs name value).2.data file.fileName =
            some (writeAt ((fs.data file.fileName).getD []) file.pos
              ("#define QTCW_sizeof_".toList ++
                (toLatin1 name ++ ' ' :: (decimal value ++ ['\n'])))) ∧
          (file.pos = ((fs.data file.fileName).getD []).length →
            (add P file fs name value).2.data file.fileName =
              some ((fs.data file.fileName).getD [] ++
                ("#define QTCW_sizeof_".toList ++
                  (toLatin1 name ++ ' ' :: (decimal value ++ ['\n']))))) := by
  have e := sizeLine_eq P name value hm
  refine ⟨e, ?_, ?_⟩
  · intro hl
    rw [e, toLatin1_of_isLatin1 name hl]
    rfl
  · intro file fs hopen hw
    have hd : (add P file fs name value).2.data file.fileName =
        some (writeAt ((fs.data file.fileName).getD []) file.pos
          ("#define QTCW_sizeof_".toList ++
            (toLatin1 name ++ ' ' :: (decimal value ++ ['\n'])))) := by
      rw [add_data, e]
      simp [hopen, hw]
      rfl
    refine ⟨hd, ?_⟩
    intro hpos
    rw [hd, hpos, writeAt_end]

/-- A call of C4 as amended: the name `QRect` and the value 16 on an empty disk. -/
theorem add_writes_line_witness :
    markersAboveTwo "QRect".toList ∧
      (add platform64 ⟨"out.h".toList, true, 0⟩ emptyDisk "QRect".toList 16).2.data
          "out.h".toList
        = some "#define QTCW_sizeof_QRect 16\n".toList :=
  ⟨by decide,
    ((add_writes_line platform64 "QRect".toList 16 (by decide)).2.2
      ⟨"out.h".toList, true, 0⟩ emptyDisk rfl rfl).2 rfl⟩

/-- C5: for every prior content of the file at the target path, a run of `main` whose
open succeeds exits with status 0 and leaves in the file exactly what the run wrote, the
two lines (nothing at all on a device that takes no data): the prior content is replaced
and none of its bytes remain. -/
theorem main_replaces_prior_content (P : Platform) (fs : FileSystem) (prog path : QString)
    (extra : List QString) (prior : QByteArray) (_hprior : fs.data path = some prior)
    (ho : fs.openable path = true) :
    (main P fs (prog :: path :: extra)).1 = Termination.exited 0 ∧
      (main P fs (prog :: path :: extra)).2.data path =
        some (if fs.writable path = true then
          sizeLine P "QPoint".toList (toInt32 P.sizeofQPoint) ++
            sizeLine P "QRect".toList (toInt32 P.sizeofQRect)
        else []) := by
  refine ⟨?_, ?_⟩
  · rw [main_status, if_pos ho]
  · rw [main_data P fs prog path extra ho]
    rfl

/-- A run of C5: the file `old.h` holds `stale` before and the two lines after. -/
theorem main_replaces_prior_content_witness :
    usedDisk.data "old.h".toList = some "stale".toList ∧
      usedDisk.openable "old.h".toList = true ∧
      (main platform64 usedDisk ["size_definer".toList, "old.h".toList]).2.data "old.h".toList
        = some "#define QTCW_sizeof_QPoint 8\n#define QTCW_sizeof_QRect 16\n".toList :=
  ⟨rfl, rfl,
    (main_replaces_prior_content platform64 usedDisk "size_definer".toList "old.h".toList []
      "stale".toList rfl rfl).2⟩

/-- C6, as stated, fails: on a disk that opens the file but accepts no data the write of
`add` returns -1 and `main` still exits with status 0. -/
theorem write_error_counterexample :
    (QFile.open ⟨"old.h".toList, false, 0⟩ fullDisk).1 = true ∧
      (QFile.write (QFile.open ⟨"old.h".toList, false, 0⟩ fullDisk).2.1
        (QFile.open ⟨"old.h".toList, false, 0⟩ fullDisk).2.2
        (sizeLine platform64 "QPoint".toList 8)).1 = -1 ∧
      (main platform64 fullDisk ["size_definer".toList, "old.h".toList]).1
        = Termination.exited 0 := by
  decide

/-- C6, amended: the end of a run with a path argument is decided by the open alone.
When the open fails `main` does not exit with status 0 (the process is aborted); when it
succeeds `main` exits with status 0 whether or not the writes reach the file. -/
theorem main_status_of_open (P : Platform) (fs : FileSystem) (prog path : QString)
    (extra : List QString) :
    (main P fs (prog :: path :: extra)).1 =
      if fs.openable path = true then Termination.exited 0 else Termination.aborted := by
  rw [main_of_path]
  split <;> rfl

/-- C7, as stated, fails: two runs with the same arguments on the same platform, both
opening their file and both exiting with status 0, leave different bytes when one disk
takes the data and the other does not. -/
theorem main_output_device_counterexample :
    fullDisk.openable "old.h".toList = true ∧ usedDisk.openable "old.h".toList = true ∧
      (main platform64 fullDisk ["size_definer".toList, "old.h".toList]).1
        = Termination.exited 0 ∧
      (main platform64 usedDisk ["size_definer".toList, "old.h".toList]).1
        = Termination.exited 0 ∧
      (main platform64 fullDisk ["size_definer".toList, "old.h".toList]).2.data "old.h".toList
        ≠ (main platform64 usedDisk ["size_definer".toList, "old.h".toList]).2.data
            "old.h".toList := by
  decide

/-- C7, amended: the output of a run depends only on the type sizes and on whether the
device takes the data.  Two runs whose files open, on platforms with the same sizes and
on devices that both accept the data written or both reject it, end with the same status
and leave the same bytes, whatever the program names, paths, extra arguments, file
systems and locales; the arguments after the path are ignored; and a second run over the
result of the first leaves the same file. -/
theorem main_output_depends_on_sizes_only (P1 P2 : Platform) (fs1 fs2 : FileSystem)
    (prog1 path1 prog2 path2 : QString) (extra1 extra2 : List QString)
    (hp : P1.sizeofQPoint = P2.sizeofQPoint) (hr : P1.sizeofQRect = P2.sizeofQRect)
    (ho1 : fs1.openable path1 = true) (ho2 : fs2.openable path2 = true)
    (hw : fs1.writable path1 = fs2.writable path2) :
    (main P1 fs1 (prog1 :: path1 :: extra1)).1 = (main P2 fs2 (prog2 :: path2 :: extra2)).1 ∧
      (main P1 fs1 (prog1 :: path1 :: extra1)).2.data path1
        = (main P2 fs2 (prog2 :: path2 :: extra2)).2.data path2 ∧
      main P1 fs1 (prog1 :: path1 :: extra1) = main P1 fs1 [prog1, path1] ∧
      (main P1 (main P1 fs1 (prog1 :: path1 :: extra1)).2 (prog1 :: path1 :: extra1)).2.data path1
        = (main P1 fs1 (prog1 :: path1 :: extra1)).2.data path1 := by
  have hf := main_flags P1 fs1 (prog1 :: path1 :: extra1)
  refine ⟨?_, ?_, ?_, ?_⟩
  · rw [main_status, main_status, if_pos ho1, if_pos ho2]
  · rw [main_data P1 fs1 _ _ _ ho1, main_data P2 fs2 _ _ _ ho2, hw,
      sizeLines_eq, sizeLines_eq, hp, hr]
  · rw [main_of_path, main_of_path]
  · rw [main_data P1 _ _ _ _ (by rw [hf.1]; exact ho1), main_data P1 fs1 _ _ _ ho1, hf.2]

/-- Two runs of C7: different program names, paths, extra arguments and disks. -/
theorem main_output_depends_on_sizes_only_witness :
    platform64.sizeofQPoint = platform64.sizeofQPoint ∧
      platform64.sizeofQRect = platform64.sizeofQRect ∧
      emptyDisk.openable "out.h".toList = true ∧ usedDisk.openable "old.h".toList = true ∧
      emptyDisk.writable "out.h".toList = usedDisk.writable "old.h".toList ∧
      (main platform64 emptyDisk ["size_definer".toList, "out.h".toList, "more".toList]).2.data
          "out.h".toList
        = (main platform64 usedDisk ["./sd".toList, "old.h".toList]).2.data "old.h".toList :=
  ⟨rfl, rfl, rfl, rfl, rfl,
    (main_output_depends_on_sizes_only platform64 platform64 emptyDisk usedDisk
      "size_definer".toList "out.h".toList "./sd".toList "old.h".toList ["more".toList] []
      rfl rfl rfl rfl rfl).2.1⟩

/-- C8, as stated, fails: on a disk that opens the file but accepts no data the run
exits with status 0, the status of success, and the output file has no line at all. -/
theorem main_output_no_line_counterexample :
    fullDisk.openable "old.h".toList = true ∧
      (main platform64 fullDisk ["size_definer".toList, "old.h".toList]).1
        = Termination.exited 0 ∧
      (main platform64 fullDisk ["size_definer".toList, "old.h".toList]).2.data "old.h".toList
        = some [] ∧
      (splitLines []).1.length = 0 := by
  decide

/-- C8, amended: after a run whose open succeeds and whose device accepts the data
written, the output file is two complete lines and nothing else: each line starts with
`#define QTCW_sizeof_` (so none is empty), has no newline inside and is ended by one, and
no byte follows the last newline. -/
theorem main_output_has_two_lines (P : Platform) (fs : FileSystem) (prog path : QString)
    (extra : List QString) (ho : fs.openable path = true) (hw : fs.writable path = true) :
    ∃ l1 l2 : QByteArray,
      (main P fs (prog :: path :: extra)).2.data path = some (l1 ++ '\n' :: (l2 ++ ['\n'])) ∧
        splitLines (l1 ++ '\n' :: (l2 ++ ['\n'])) = ([l1, l2], []) ∧
        ([l1, l2] : List QByteArray).length = 2 ∧
        "#define QTCW_sizeof_".toList <+: l1 ∧ "#define QTCW_sizeof_".toList <+: l2 ∧
        l1 ≠ [] ∧ l2 ≠ [] ∧ '\n' ∉ l1 ∧ '\n' ∉ l2 := by
  have hd := main_data P fs prog path extra ho
  rw [if_pos hw, sizeLines_eq] at hd
  have n1 := line_body_no_newline "QPoint".toList (toInt32 P.sizeofQPoint) (by decide)
  have n2 := line_body_no_newline "QRect".toList (toInt32 P.sizeofQRect) (by decide)
  refine ⟨lineHead ++ ("QPoint".toList ++ ' ' :: decimal (toInt32 P.sizeofQPoint)),
    lineHead ++ ("QRect".toList ++ ' ' :: decimal (toInt32 P.sizeofQRect)), ?_, ?_, rfl,
    ⟨_, rfl⟩, ⟨_, rfl⟩, ?_, ?_, n1, n2⟩
  · rw [hd]
    simp [lineHead]
  · rw [splitLines_line _ _ n1, splitLines_line _ _ n2]
    rfl
  · simp [lineHead]
  · simp [lineHead]

/-- A run of C8: the two lines of the usual platform. -/
theorem main_output_has_two_lines_witness :
    emptyDisk.openable "out.h".toList = true ∧ emptyDisk.writable "out.h".toList = true ∧
      ∃ l1 l2 : QByteArray,
        (main platform64 emptyDisk ["size_definer".toList, "out.h".toList]).2.data "out.h".toList
            = some (l1 ++ '\n' :: (l2 ++ ['\n'])) ∧
          splitLines (l1 ++ '\n' :: (l2 ++ ['\n'])) = ([l1, l2], []) ∧
          ([l1, l2] : List QByteArray).length = 2 ∧
          "#define QTCW_sizeof_".toList <+: l1 ∧ "#define QTCW_sizeof_".toList <+: l2 ∧
          l1 ≠ [] ∧ l2 ≠ [] ∧ '\n' ∉ l1 ∧ '\n' ∉ l2 :=
  ⟨rfl, rfl,
    main_output_has_two_lines platform64 emptyDisk "size_definer".toList "out.h".toList []
      rfl rfl⟩

/-- C9, as stated, fails: right after the open of `main` on a disk that accepts no data
the file is empty, and after `add` it is still empty, not the formatted line. -/
theorem add_no_append_counterexample :
    (QFile.open ⟨"old.h".toList, false, 0⟩ fullDisk).1 = true ∧
      (openedOn fullDisk "old.h".toList).2.data "old.h".toList = some [] ∧
      (add platform64 (openedOn fullDisk "old.h".toList).1 (openedOn fullDisk "old.h".toList).2
          "QPoint".toList 8).2.data "old.h".toList
        = some [] ∧
      (add platform64 (openedOn fullDisk "old.h".toList).1 (openedOn fullDisk "old.h".toList).2
          "QPoint".toList 8).2.data "old.h".toList
        ≠ some ([] ++ sizeLine platform64 "QPoint".toList 8) := by
  decide

/-- C9, amended: on a file whose write position is its end, `add` only appends, and only
when the write succeeds.  For every file content `c`, name and value, the content after
`add` is `c` followed by the formatted line when the file is open and its device accepts
the data, and `c` otherwise, and the position is the end again; no other file changes; a
sequence of successful `add` calls, of any length, puts its lines after `c` in call
order; and the file `main` opens is such a file, so that the calls that follow the open
leave exactly their lines, in call order. -/
theorem add_appends (P : Platform) (file : QFile) (fs : FileSystem) (name : QString)
    (value : Int) (c : QByteArray) (hc : fs.data file.fileName = some c)
    (hpos : file.pos = c.length) :
    (add P file fs name value).2.data file.fileName =
        some (if (file.isOpen && fs.writable file.fileName) = true then
          c ++ sizeLine P name value else c) ∧
      (add P file fs name value).1.pos =
        (if (file.isOpen && fs.writable file.fileName) = true then
          (c ++ sizeLine P name value).length else c.length) ∧
      (∀ p, p ≠ file.fileName → (add P file fs name value).2.data p = fs.data p) ∧
      (∀ entries : List (QString × Int), file.isOpen = true →
        fs.writable file.fileName = true →
        (addAll P file fs entries).2.data file.fileName = some (c ++ linesOf P entries)) ∧
      ∀ (fs0 : FileSystem) (path : QString) (entries : List (QString × Int)),
        fs0.openable path = true → fs0.writable path = true →
        (addAll P (openedOn fs0 path).1 (openedOn fs0 path).2 entries).2.data path
          = some (linesOf P entries) := by
  refine ⟨?_, ?_, ?_, ?_, ?_⟩
  · rw [add_data, hc, hpos]
    by_cases h : (file.isOpen && fs.writable file.fileName) = true <;>
      simp [h, writeAt_end]
  · rw [add_file, hpos]
    by_cases h : (file.isOpen && fs.writable file.fileName) = true <;> simp [h]
  · intro p hp
    rw [add_data]
    simp [hp]
  · intro entries hopen hw
    exact addAll_data P entries file fs c hopen hw hc hpos
  · intro fs0 path entries ho hw
    have h := addAll_data P entries (openedOn fs0 path).1 (openedOn fs0 path).2 []
      (by simp [openedOn, QFile.open, ho]) (by simp [openedOn, QFile.open, ho, hw])
      (by simp [openedOn, QFile.open, ho]) (by simp [openedOn, QFile.open, ho])
    have hn : (openedOn fs0 path).1.fileName = path := by simp [openedOn, QFile.open, ho]
    rw [hn] at h
    simpa using h

/-- A call of C9 as amended: the second `add` of `main` on an empty disk, on the file as
the open and the first `add` leave it. -/
theorem add_appends_witness :
    (add platform64 (openedOn emptyDisk "out.h".toList).1 (openedOn emptyDisk "out.h".toList).2
          "QPoint".toList 8).2.data "out.h".toList
        = some "#define QTCW_sizeof_QPoint 8\n".toList ∧
      (add platform64 (openedOn emptyDisk "out.h".toList).1 (openedOn emptyDisk "out.h".toList).2
          "QPoint".toList 8).1.pos = "#define QTCW_sizeof_QPoint 8\n".toList.length ∧
      (add platform64
          (add platform64 (openedOn emptyDisk "out.h".toList).1
            (openedOn emptyDisk "out.h".toList).2 "QPoint".toList 8).1
          (add platform64 (openedOn emptyDisk "out.h".toList).1
            (openedOn emptyDisk "out.h".toList).2 "QPoint".toList 8).2
          "QRect".toList 16).2.data "out.h".toList
        = some "#define QTCW_sizeof_QPoint 8\n#define QTCW_sizeof_QRect 16\n".toList :=
  ⟨rfl, rfl,
    (add_appends platform64
      (add platform64 (openedOn emptyDisk "out.h".toList).1
        (openedOn emptyDisk "out.h".toList).2 "QPoint".toList 8).1
      (add platform64 (openedOn emptyDisk "out.h".toList).1
        (openedOn emptyDisk "out.h".toList).2 "QPoint".toList 8).2
      "QRect".toList 16 "#define QTCW_sizeof_QPoint 8\n".toList rfl rfl).1⟩

/-- C10: on names that are Latin-1 text without place marker the line of `add` determines
the name and the value. -/
theorem sizeLine_injective (P : Platform) (n1 n2 : QString) (v1 v2 : Int)
    (hl1 : isLatin1 n1) (hm1 : hasNoPlaceMarker n1)
    (hl2 : isLatin1 n2) (hm2 : hasNoPlaceMarker n2)
    (h : sizeLine P n1 v1 = sizeLine P n2 v2) : n1 = n2 ∧ v1 = v2 := by
  rw [sizeLine_eq P n1 v1 (markersAboveTwo_of_hasNoPlaceMarker n1 hm1),
    sizeLine_eq P n2 v2 (markersAboveTwo_of_hasNoPlaceMarker n2 hm2),
    toLatin1_of_isLatin1 n1 hl1, toLatin1_of_isLatin1 n2 hl2] at h
  have h1 := List.append_cancel_left h
  have ns : ∀ v : Int, ' ' ∉ decimal v ++ ['\n'] := by
    intro v hmem
    rcases List.mem_append.mp hmem with hmem | hmem
    · exact (decimal_chars v _ hmem).1 rfl
    · exact absurd hmem (by decide)
  obtain ⟨e1, e2⟩ := append_space_cancel n1 n2 _ _ (ns v1) (ns v2) h1
  exact ⟨e1, decimal_injective v1 v2 (List.append_cancel_right e2)⟩

/-- A use of C10: the line of `QPoint` with 8 is the line of no other pair. -/
theorem sizeLine_injective_witness :
    isLatin1 "QPoint".toList ∧ hasNoPlaceMarker "QPoint".toList ∧
      isLatin1 "QPoint".toList ∧ hasNoPlaceMarker "QPoint".toList ∧
      sizeLine platform64 "QPoint".toList 8 = sizeLine platform64 "QPoint".toList 8 ∧
      ("QPoint".toList = "QPoint".toList ∧ (8 : Int) = 8) :=
  ⟨by decide, by decide, by decide, by decide, rfl,
    sizeLine_injective platform64 "QPoint".toList "QPoint".toList 8 8
      (by decide) (by decide) (by decide) (by decide) rfl⟩

end SizeDefiner
